import Mathlib

/-!
# Verification of the picelo rating kernel

Shallow embedding of `src/picelo.py`: the file-name rating codec
(`RankFileModel.__init__` / `RankFileModel.filename`), the Elo update
(`RankFileModel.wins_over`), the reset operation (`RankFileModel.reset_name`)
and the pairing scheduler (`MainWindow.load_next`).

File names are modelled as `List Char` (with `String` wrappers); Python floats
are modelled by exact real arithmetic (`ℝ`), as the algebraic claims about the
Elo update are stated over exact reals; Python `int(...)`, which raises
`ValueError` on malformed input, is modelled as an `Option`-returning parser
where `none` stands for the raised exception.
-/

namespace Picelo

/-! ## Decimal parsing: model of Python `int(str)`

`int(r)` strips surrounding whitespace, accepts an optional sign and then a
nonempty run of decimal digits.  (Python additionally accepts single `_`
separators between digits and non-ASCII decimal digits; those are omitted here:
they can never be produced by the encoder `filename()` and no claim mentions
them.) -/

def isPySpace (c : Char) : Bool :=
  c = ' ' || c = '\t' || c = '\n' || c = '\r' || c = '\x0b' || c = '\x0c'

def stripWs (s : List Char) : List Char :=
  ((s.dropWhile isPySpace).reverse.dropWhile isPySpace).reverse

def parseDigitsAux : ℕ → List Char → Option ℕ
  | acc, [] => some acc
  | acc, c :: rest =>
    if c.isDigit then parseDigitsAux (10 * acc + (c.toNat - 48)) rest else none

def parseDigits (l : List Char) : Option ℕ :=
  match l with
  | [] => none
  | _ :: _ => parseDigitsAux 0 l

def pyInt (s : List Char) : Option ℤ :=
  match stripWs s with
  | [] => none
  | c :: rest =>
    if c = '+' then (parseDigits rest).map (fun n => (n : ℤ))
    else if c = '-' then (parseDigits rest).map (fun n => -(n : ℤ))
    else (parseDigits (c :: rest)).map (fun n => (n : ℤ))

/-! ## String helpers: models of `str.split(",")`, `str.partition("] ")`,
`"] " in name` and `pathlib.PurePath.stem` -/

/-- Model of `ratings.split(",")`: split on every comma; `"".split(",") == [""]`. -/
def splitComma : List Char → List (List Char)
  | [] => [[]]
  | c :: rest =>
    if c = ',' then [] :: splitComma rest
    else
      match splitComma rest with
      | [] => [[c]]
      | g :: gs => (c :: g) :: gs

/-- Locate the leftmost occurrence of the two-character separator `"] "`;
returns the part before it and the part after it. -/
def splitOnBracketSpace : List Char → Option (List Char × List Char)
  | [] => none
  | c :: rest =>
    if c = ']' && rest.head? = some ' ' then some ([], rest.tail)
    else (splitOnBracketSpace rest).map (fun p => (c :: p.1, p.2))

/-- Model of `"] " in name`. -/
def hasSep (s : List Char) : Bool := (splitOnBracketSpace s).isSome

/-- Model of `s.partition("] ")` (projected to the before/after parts; when the
separator is absent Python returns `(s, "", "")`). -/
def partitionSep (s : List Char) : List Char × List Char :=
  match splitOnBracketSpace s with
  | some p => p
  | none => (s, [])

/-- Index of the last `'.'` in the name, model of `name.rfind(".")`
(with `none` for Python's `-1`). -/
def rfindDot : List Char → Option ℕ
  | [] => none
  | c :: rest =>
    match rfindDot rest with
    | some i => some (i + 1)
    | none => if c = '.' then some 0 else none

/-- Model of `pathlib.PurePath.stem` on a file name: the name up to its last
dot, provided that dot is neither the first nor the last character. -/
def stemL (s : List Char) : List Char :=
  match rfindDot s with
  | some i => if 0 < i ∧ i < s.length - 1 then s.take i else s
  | none => s

/-- Model of `stem.startswith("[")`. -/
def startsBracket : List Char → Bool
  | [] => false
  | c :: _ => c = '['

/-! ## Decoding: model of the parsing branch of `RankFileModel.__init__`
(src/picelo.py lines 239-244) -/

/-- The structural guard `self._fp.stem.startswith("[") and "] " in self._fp.name`. -/
def hasEloTag (name : List Char) : Bool := startsBracket (stemL name) && hasSep name

/-- Model of `RankFileModel.__init__` restricted to its name-parsing effect:
returns `(cleanName, score, matches)`.  When the structural guard fails the
defaults `(name, 1400, 0)` are kept.  When the guard holds, the prefix is split
at the first `"] "`, the part between the brackets is split on `","`, and both
fields are parsed with `int`; `none` models the `ValueError` Python raises when
there are not exactly two fields or a field is not an integer literal. -/
def decodeInit (name : List Char) : Option (List Char × ℤ × ℤ) :=
  if hasEloTag name then
    match splitComma (partitionSep (name.drop 1)).1 with
    | [s1, s2] =>
      match pyInt s1, pyInt s2 with
      | some a, some b => some ((partitionSep (name.drop 1)).2, a, b)
      | _, _ => none
    | _ => none
  else some (name, 1400, 0)

/-! ## Encoding: model of `RankFileModel.filename`
(src/picelo.py lines 246-248)

`f"[{self.score:04.0f},{self.matches:.0f}] {self._fp_clean_name}"`.
The format `:04.0f` prints the score rounded to an integer, zero-padded to a
minimum total width of 4 (sign included); `:.0f` prints the match count as a
plain integer.  The decimal printer below is fuel-structural so that concrete
instances evaluate inside the kernel. -/

def toDecimalAux : ℕ → ℕ → List Char → List Char
  | 0, _, acc => acc
  | fuel + 1, n, acc =>
    if n < 10 then Nat.digitChar n :: acc
    else toDecimalAux fuel (n / 10) (Nat.digitChar (n % 10) :: acc)

def natToDecimal (n : ℕ) : List Char := toDecimalAux (n + 1) n []

/-- Decimal rendering of an integer, model of `f"{z:.0f}"` at integral values. -/
def intDecimal (z : ℤ) : List Char :=
  if z < 0 then '-' :: natToDecimal z.natAbs else natToDecimal z.natAbs

/-- Decimal rendering zero-padded to total width 4, model of `f"{z:04.0f}"`
at integral values. -/
def pad4 (z : ℤ) : List Char :=
  if z < 0 then '-' :: (List.replicate (3 - (natToDecimal z.natAbs).length) '0' ++ natToDecimal z.natAbs)
  else List.replicate (4 - (natToDecimal z.natAbs).length) '0' ++ natToDecimal z.natAbs

/-- Model of the f-string in `RankFileModel.filename` for an already-rounded
integer score. -/
def encodeL (clean : List Char) (score matchCount : ℤ) : List Char :=
  '[' :: (pad4 score ++ ',' :: (intDecimal matchCount ++ ']' :: ' ' :: clean))

/-! ## String-level wrappers -/

def encodeName (clean : String) (score matchCount : ℤ) : String :=
  ⟨encodeL clean.data score matchCount⟩

def decodeName (s : String) : Option (String × ℤ × ℤ) :=
  (decodeInit s.data).map (fun t => (⟨t.1⟩, t.2.1, t.2.2))

/-! ## Elo update (src/picelo.py lines 261-273)

`wins_over` computes, for winner rating `R_a` and loser rating `R_b`,

    E_a = 1 / (1 + 10 ** ((R_a - R_b) / 400))
    E_b = 1 / (1 + 10 ** ((R_b - R_a) / 400))
    new_a = R_a + k * (1 - E_a)
    new_b = R_b + k * (0 - E_b)

over floats; the claims quantify over exact real arithmetic, so the formulas
are embedded over `ℝ` with real exponentiation.  Note the exponent of `E_a`
in the code is `(R_a - R_b) / 400`. -/

noncomputable def eloUpdate (Ra Rb k : ℝ) : ℝ × ℝ :=
  (Ra + k * (1 - 1 / (1 + (10 : ℝ) ^ ((Ra - Rb) / 400))),
   Rb + k * (0 - 1 / (1 + (10 : ℝ) ^ ((Rb - Ra) / 400))))

/-- Modelled from the spec (section 4.2 EloUpdater), for comparison with the
code's `eloUpdate`: `E_A = 1 / (1 + 10^((ratingB - ratingA)/400))`,
`E_B = 1 / (1 + 10^((ratingA - ratingB)/400))`,
`newRatingA = ratingA + k * (1 - E_A)`, `newRatingB = ratingB + k * (0 - E_B)`. -/
noncomputable def eloUpdateSpec (Ra Rb k : ℝ) : ℝ × ℝ :=
  (Ra + k * (1 - 1 / (1 + (10 : ℝ) ^ ((Rb - Ra) / 400))),
   Rb + k * (0 - 1 / (1 + (10 : ℝ) ^ ((Ra - Rb) / 400))))

/-! ## RankFileModel as a value (src/picelo.py lines 212-278)

`fpName` is `self._fp.name` (renames keep the parent directory, which is
therefore omitted), `clean` is `self._fp_clean_name`, `score`, `matchCount`
and `k` are `self.score`, `self.matches`, `self._k`. -/

structure Item where
  fpName : List Char
  clean : List Char
  score : ℝ
  matchCount : ℤ
  k : ℝ

/-- Python's `format(x, '04.0f')` rounds the score to the nearest integer,
ties to even (the claims only ever evaluate it at integral scores, where it is
exact; its value at non-representable reals is irrelevant to every claim). -/
noncomputable def formatScore (x : ℝ) : ℤ :=
  if x - ⌊x⌋ < 1 / 2 then ⌊x⌋
  else if 1 / 2 < x - ⌊x⌋ then ⌊x⌋ + 1
  else if 2 ∣ ⌊x⌋ then ⌊x⌋ else ⌊x⌋ + 1

/-- Model of the method `RankFileModel.filename`. -/
noncomputable def filenameL (it : Item) : List Char :=
  encodeL it.clean (formatScore it.score) it.matchCount

/-- Model of `RankFileModel.update_name`: rename the backing file to
`filename()`. -/
noncomputable def updateName (it : Item) : Item :=
  { it with fpName := filenameL it }

/-- Model of `RankFileModel.reset_name`: rename the backing file back to the
clean name (score and match count are left untouched by the code). -/
def resetName (it : Item) : Item :=
  { it with fpName := it.clean }

/-- Model of `RankFileModel.__init__` at the default arguments
(`score=1400`, `k=32`): parse the rating prefix out of the file name;
`none` models the `ValueError` escaping the constructor. -/
noncomputable def mkItem (name : List Char) : Option Item :=
  (decodeInit name).map fun t =>
    { fpName := name, clean := t.1, score := (t.2.1 : ℝ), matchCount := t.2.2, k := 32 }

/-- Model of `RankFileModel.wins_over` (src/picelo.py lines 261-278): compute
both expectations, update both scores — each delta scaled by `self._k`, the
winner's K-factor — increment both match counts, then rename both files. -/
noncomputable def winsOver (w looser : Item) : Item × Item :=
  let Ra := w.score
  let Rb := looser.score
  let Ea := 1 / (1 + (10 : ℝ) ^ ((Ra - Rb) / 400))
  let Eb := 1 / (1 + (10 : ℝ) ^ ((Rb - Ra) / 400))
  let w1 := { w with score := Ra + w.k * (1 - Ea), matchCount := w.matchCount + 1 }
  let l1 := { looser with score := Rb + w.k * (0 - Eb), matchCount := looser.matchCount + 1 }
  (updateName w1, updateName l1)

/-! ## Scheduler (src/picelo.py lines 126-143)

`MainWindow.load_next` pulls two items from a stored iterator; on exhaustion it
reshuffles the working list, bumps the round counter (capped at 3) and recurses,
and once the cap is reached it clears both display slots.  The state is the
working list (`self._fp_list`), the unconsumed tail of the iterator
(`self._fp_list_iter`) and the round counter (`self._rounds`); the shuffle is
an arbitrary function `sh`, applied to the current list at each round start.
`loadNext` returns the next displayed pair, `none` standing for both slots
cleared (the transient display of an odd leftover item is overwritten inside
the same call and is not observable). -/

structure Sched (α : Type) where
  fpList : List α
  iterRest : List α
  rounds : ℕ

def loadNext (sh : ℕ → List α → List α) : Sched α → Sched α × Option (α × α)
  | ⟨l, a :: b :: rest, r⟩ => (⟨l, rest, r⟩, some (a, b))
  | ⟨l, [_], r⟩ =>
    if h : r < 3 then loadNext sh ⟨sh r l, sh r l, r + 1⟩ else (⟨l, [], r⟩, none)
  | ⟨l, [], r⟩ =>
    if h : r < 3 then loadNext sh ⟨sh r l, sh r l, r + 1⟩ else (⟨l, [], r⟩, none)
termination_by s => 3 - s.rounds
decreasing_by all_goals simp_all; omega

/-- Disjoint consecutive pairs of a list: the pairs one pass of `load_next`
yields from the (shuffled) working list. -/
def pairUp : List α → List (α × α)
  | a :: b :: rest => (a, b) :: pairUp rest
  | _ => []

/-- The items occurring in a pair list, in display order. -/
def pairsFlat : List (α × α) → List α
  | [] => []
  | p :: ps => p.1 :: p.2 :: pairsFlat ps

/-- Decrease lemma: whenever `loadNext` yields a pair, either the round counter
advanced or two items were consumed from the current pass. -/
theorem loadNext_dec (sh : ℕ → List α → List α) :
    ∀ (n : ℕ) (s : Sched α) (p : α × α), 3 - s.rounds ≤ n →
      (loadNext sh s).2 = some p →
      3 - (loadNext sh s).1.rounds < 3 - s.rounds ∨
        ((loadNext sh s).1.rounds = s.rounds ∧
          (loadNext sh s).1.iterRest.length < s.iterRest.length) := by
  intro n
  induction n with
  | zero =>
    intro s p hle hsome
    obtain ⟨l, rest, r⟩ := s
    match rest with
    | a :: b :: t => right; constructor; · simp [loadNext]
                     · simp [loadNext]; omega
    | [] =>
      have hr : ¬ r < 3 := by simp_all; omega
      simp [loadNext, hr] at hsome
    | [a] =>
      have hr : ¬ r < 3 := by simp_all; omega
      simp [loadNext, hr] at hsome
  | succ n ih =>
    intro s p hle hsome
    obtain ⟨l, rest, r⟩ := s
    match rest with
    | a :: b :: t => right; constructor; · simp [loadNext]
                     · simp [loadNext]; omega
    | [] =>
      by_cases hr : r < 3
      · have hstep : loadNext sh ⟨l, [], r⟩ = loadNext sh ⟨sh r l, sh r l, r + 1⟩ := by
          simp [loadNext, hr]
        rw [hstep] at hsome ⊢
        have hle' : 3 - (r + 1) ≤ n := by
          have h2 : 3 - r ≤ n + 1 := hle
          omega
        rcases ih ⟨sh r l, sh r l, r + 1⟩ p hle' hsome with h1 | ⟨h1, _⟩
        · left; simp_all; omega
        · left; simp_all; omega
      · simp [loadNext, hr] at hsome
    | [a] =>
      by_cases hr : r < 3
      · have hstep : loadNext sh ⟨l, [a], r⟩ = loadNext sh ⟨sh r l, sh r l, r + 1⟩ := by
          simp [loadNext, hr]
        rw [hstep] at hsome ⊢
        have hle' : 3 - (r + 1) ≤ n := by
          have h2 : 3 - r ≤ n + 1 := hle
          omega
        rcases ih ⟨sh r l, sh r l, r + 1⟩ p hle' hsome with h1 | ⟨h1, _⟩
        · left; simp_all; omega
        · left; simp_all; omega
      · simp [loadNext, hr] at hsome

/-- The full interaction: repeatedly call `load_next`, collecting every
displayed pair, until both display slots are cleared; also returns the final
scheduler state. -/
def run (sh : ℕ → List α → List α) (s : Sched α) : List (α × α) × Sched α :=
  match h : (loadNext sh s).2 with
  | some p =>
    ((p :: (run sh (loadNext sh s).1).1), (run sh (loadNext sh s).1).2)
  | none => ([], (loadNext sh s).1)
termination_by (3 - s.rounds, s.iterRest.length)
decreasing_by
  rcases loadNext_dec sh (3 - s.rounds) s p le_rfl h with h1 | ⟨h1, h2⟩
  · exact Prod.Lex.left _ _ h1
  · rw [h1]; exact Prod.Lex.right _ h2

/-- The pairs the remaining rounds will produce, starting from working list `l`
at round counter `r`: one shuffled pass per remaining round. -/
def expectedRun (sh : ℕ → List α → List α) (l : List α) (r : ℕ) : List (α × α) :=
  if h : r < 3 then pairUp (sh r l) ++ expectedRun sh (sh r l) (r + 1) else []
termination_by 3 - r
decreasing_by omega

/-! ## Scheduler lemmas -/

theorem loadNext_cons_cons (sh : ℕ → List α → List α) (l : List α) (a b : α)
    (t : List α) (r : ℕ) :
    loadNext sh ⟨l, a :: b :: t, r⟩ = (⟨l, t, r⟩, some (a, b)) := by
  simp [loadNext]

theorem loadNext_nil_lt (sh : ℕ → List α → List α) (l : List α) (r : ℕ) (hr : r < 3) :
    loadNext sh ⟨l, [], r⟩ = loadNext sh ⟨sh r l, sh r l, r + 1⟩ := by
  simp [loadNext, hr]

theorem loadNext_one_lt (sh : ℕ → List α → List α) (l : List α) (a : α) (r : ℕ)
    (hr : r < 3) :
    loadNext sh ⟨l, [a], r⟩ = loadNext sh ⟨sh r l, sh r l, r + 1⟩ := by
  simp [loadNext, hr]

theorem loadNext_nil_ge (sh : ℕ → List α → List α) (l : List α) (r : ℕ) (hr : ¬ r < 3) :
    loadNext sh ⟨l, [], r⟩ = (⟨l, [], r⟩, none) := by
  simp [loadNext, hr]

theorem loadNext_one_ge (sh : ℕ → List α → List α) (l : List α) (a : α) (r : ℕ)
    (hr : ¬ r < 3) :
    loadNext sh ⟨l, [a], r⟩ = (⟨l, [], r⟩, none) := by
  simp [loadNext, hr]

theorem run_some (sh : ℕ → List α → List α) (s : Sched α) (p : α × α)
    (h : (loadNext sh s).2 = some p) :
    run sh s = (p :: (run sh (loadNext sh s).1).1, (run sh (loadNext sh s).1).2) := by
  rw [run]
  split
  · rename_i p' h'
    rw [h] at h'
    cases h'
    rfl
  · rename_i h'
    rw [h] at h'
    cases h'

theorem run_none (sh : ℕ → List α → List α) (s : Sched α)
    (h : (loadNext sh s).2 = none) :
    run sh s = ([], (loadNext sh s).1) := by
  rw [run]
  split
  · rename_i p' h'
    rw [h] at h'
    cases h'
  · rfl

theorem run_congr (sh : ℕ → List α → List α) (s s2 : Sched α)
    (h : loadNext sh s = loadNext sh s2) : run sh s = run sh s2 := by
  cases hs : (loadNext sh s).2 with
  | some p =>
    rw [run_some sh s p hs, run_some sh s2 p (by rw [← h]; exact hs), h]
  | none =>
    rw [run_none sh s hs, run_none sh s2 (by rw [← h]; exact hs), h]

theorem expectedRun_lt (sh : ℕ → List α → List α) (l : List α) (r : ℕ) (hr : r < 3) :
    expectedRun sh l r = pairUp (sh r l) ++ expectedRun sh (sh r l) (r + 1) := by
  rw [expectedRun]
  simp [hr]

theorem expectedRun_ge (sh : ℕ → List α → List α) (l : List α) (r : ℕ) (hr : ¬ r < 3) :
    expectedRun sh l r = [] := by
  rw [expectedRun]
  simp [hr]

/-- Once the round counter has reached the cap, `run` drains the current pass
into consecutive pairs and stops with the iterator exhausted. -/
theorem run_pass (sh : ℕ → List α → List α) :
    ∀ (m : ℕ) (rest l : List α) (r : ℕ), rest.length ≤ m → 3 ≤ r →
      run sh ⟨l, rest, r⟩ = (pairUp rest, ⟨l, [], r⟩) := by
  intro m
  induction m with
  | zero =>
    intro rest l r hm hr
    match rest with
    | [] =>
      rw [run_none sh _ (by rw [loadNext_nil_ge sh l r (by omega)]),
        loadNext_nil_ge sh l r (by omega)]
      rfl
    | a :: t => simp at hm
  | succ m ih =>
    intro rest l r hm hr
    match rest with
    | [] =>
      rw [run_none sh _ (by rw [loadNext_nil_ge sh l r (by omega)]),
        loadNext_nil_ge sh l r (by omega)]
      rfl
    | [a] =>
      rw [run_none sh _ (by rw [loadNext_one_ge sh l a r (by omega)]),
        loadNext_one_ge sh l a r (by omega)]
      rfl
    | a :: b :: t =>
      have hs : (loadNext sh ⟨l, a :: b :: t, r⟩).2 = some (a, b) := by
        rw [loadNext_cons_cons]
      rw [run_some sh _ _ hs, loadNext_cons_cons]
      have ht : t.length ≤ m := by simp at hm; omega
      rw [ih t l r ht hr]
      simp [pairUp]

/-- Closed form of the whole interaction: the pairs are the concatenation of
one `pairUp` block per remaining round, and the final state has an exhausted
iterator and a capped round counter. -/
theorem run_main (sh : ℕ → List α → List α) :
    ∀ (n m : ℕ) (rest l : List α) (r : ℕ), 3 - r ≤ n → rest.length ≤ m →
      run sh ⟨l, rest, r⟩ =
        ((pairUp rest ++ expectedRun sh l r : List (α × α)),
          (run sh ⟨l, rest, r⟩).2) ∧
      3 ≤ (run sh ⟨l, rest, r⟩).2.rounds ∧
      (run sh ⟨l, rest, r⟩).2.iterRest = [] := by
  intro n
  induction n with
  | zero =>
    intro m rest l r hn hm
    have hr : 3 ≤ r := by omega
    rw [run_pass sh m rest l r hm hr]
    refine ⟨?_, by simpa using hr, rfl⟩
    rw [expectedRun]
    simp [Nat.not_lt.mpr hr]
  | succ n ihn =>
    intro m
    induction m with
    | zero =>
      intro rest l r hn hm
      match rest with
      | [] =>
        by_cases hr : r < 3
        · have hcongr := run_congr sh ⟨l, [], r⟩ ⟨sh r l, sh r l, r + 1⟩
            (loadNext_nil_lt sh l r hr)
          have hn' : 3 - (r + 1) ≤ n := by omega
          obtain ⟨h1, h2, h3⟩ := ihn ((sh r l).length) (sh r l) (sh r l) (r + 1) hn' le_rfl
          rw [hcongr, h1]
          refine ⟨?_, h2, h3⟩
          rw [expectedRun_lt sh l r hr]
          simp [pairUp]
        · rw [run_pass sh 0 [] l r (by simp) (by omega)]
          refine ⟨?_, by simpa using Nat.not_lt.mp hr, rfl⟩
          rw [expectedRun]
          simp [hr, pairUp]
      | a :: t => simp at hm
    | succ m ihm =>
      intro rest l r hn hm
      match rest with
      | [] =>
        exact ihm [] l r hn (by simp)
      | [a] =>
        by_cases hr : r < 3
        · have hcongr := run_congr sh ⟨l, [a], r⟩ ⟨sh r l, sh r l, r + 1⟩
            (loadNext_one_lt sh l a r hr)
          have hn' : 3 - (r + 1) ≤ n := by omega
          obtain ⟨h1, h2, h3⟩ := ihn ((sh r l).length) (sh r l) (sh r l) (r + 1) hn' le_rfl
          rw [hcongr, h1]
          refine ⟨?_, h2, h3⟩
          rw [expectedRun_lt sh l r hr]
          simp [pairUp]
        · rw [run_pass sh 1 [a] l r (by simp) (by omega)]
          refine ⟨?_, by simpa using Nat.not_lt.mp hr, rfl⟩
          rw [expectedRun]
          simp [hr, pairUp]
      | a :: b :: t =>
        have hs : (loadNext sh ⟨l, a :: b :: t, r⟩).2 = some (a, b) := by
          rw [loadNext_cons_cons]
        have hrw := run_some sh ⟨l, a :: b :: t, r⟩ (a, b) hs
        rw [loadNext_cons_cons] at hrw
        dsimp only at hrw
        have ht : t.length ≤ m := by simp at hm; omega
        obtain ⟨h1, h2, h3⟩ := ihm t l r hn ht
        refine ⟨?_, ?_, ?_⟩
        · rw [hrw]
          dsimp only
          rw [h1]
          simp [pairUp]
        · rw [hrw]
          dsimp only
          exact h2
        · rw [hrw]
          dsimp only
          exact h3

theorem pairUp_length : ∀ (l : List α), (pairUp l).length = l.length / 2
  | [] => by simp [pairUp]
  | [_] => by simp [pairUp]
  | a :: b :: t => by
    have := pairUp_length t
    simp [pairUp, this]
    omega

theorem pairsFlat_pairUp : ∀ (l : List α),
    pairsFlat (pairUp l) = l.take (2 * (l.length / 2))
  | [] => by simp [pairUp, pairsFlat]
  | [a] => by simp [pairUp, pairsFlat]
  | a :: b :: t => by
    have ih := pairsFlat_pairUp t
    have h2 : 2 * ((t.length + 1 + 1) / 2) = 2 * (t.length / 2) + 2 := by omega
    simp [pairUp, pairsFlat, ih, h2, List.take_succ_cons]

/-! ## Decimal printer correctness -/

theorem digitChar_isDigit {d : ℕ} (h : d < 10) : (Nat.digitChar d).isDigit = true := by
  interval_cases d <;> decide

theorem digitChar_toNat {d : ℕ} (h : d < 10) : (Nat.digitChar d).toNat = 48 + d := by
  interval_cases d <;> decide

theorem isDigit_facts {c : Char} (h : c.isDigit = true) :
    c ≠ ']' ∧ c ≠ ',' ∧ c ≠ '+' ∧ c ≠ '-' ∧ c ≠ '[' ∧ isPySpace c = false := by
  refine ⟨?_, ?_, ?_, ?_, ?_, ?_⟩
  · rintro rfl; exact absurd h (by decide)
  · rintro rfl; exact absurd h (by decide)
  · rintro rfl; exact absurd h (by decide)
  · rintro rfl; exact absurd h (by decide)
  · rintro rfl; exact absurd h (by decide)
  · cases hc : isPySpace c with
    | false => rfl
    | true =>
      simp [isPySpace] at hc
      have hc2 : c = ' ' ∨ c = '\t' ∨ c = '\n' ∨ c = '\x0d' ∨ c = '\x0b' ∨ c = '\x0c' := by
        tauto
      rcases hc2 with rfl | rfl | rfl | rfl | rfl | rfl <;> exact absurd h (by decide)

theorem toDecimalAux_fuel : ∀ (n fuel fuel' : ℕ) (acc : List Char),
    n < fuel → n < fuel' → toDecimalAux fuel n acc = toDecimalAux fuel' n acc := by
  intro n
  induction n using Nat.strong_induction_on with
  | _ n ih =>
    intro fuel fuel' acc h1 h2
    cases fuel with
    | zero => omega
    | succ f =>
      cases fuel' with
      | zero => omega
      | succ f' =>
        by_cases hn : n < 10
        · simp [toDecimalAux, hn]
        · have hdiv : n / 10 < n := Nat.div_lt_self (by omega) (by omega)
          simp only [toDecimalAux, hn, if_false]
          exact ih (n / 10) hdiv f f' _ (by omega) (by omega)

theorem toDecimalAux_acc : ∀ (n fuel : ℕ) (acc : List Char), n < fuel →
    toDecimalAux fuel n acc = toDecimalAux fuel n [] ++ acc := by
  intro n
  induction n using Nat.strong_induction_on with
  | _ n ih =>
    intro fuel acc h1
    cases fuel with
    | zero => omega
    | succ f =>
      by_cases hn : n < 10
      · simp [toDecimalAux, hn]
      · have hdiv : n / 10 < n := Nat.div_lt_self (by omega) (by omega)
        have hf : n / 10 < f := by omega
        simp only [toDecimalAux, hn, if_false]
        rw [ih (n / 10) hdiv f _ hf, ih (n / 10) hdiv f [Nat.digitChar (n % 10)] hf,
          List.append_assoc]
        rfl

theorem natToDecimal_lt {n : ℕ} (h : n < 10) : natToDecimal n = [Nat.digitChar n] := by
  simp [natToDecimal, toDecimalAux, h]

theorem natToDecimal_ge {n : ℕ} (h : 10 ≤ n) :
    natToDecimal n = natToDecimal (n / 10) ++ [Nat.digitChar (n % 10)] := by
  have hdiv : n / 10 < n := Nat.div_lt_self (by omega) (by omega)
  rw [natToDecimal]
  rw [show toDecimalAux (n + 1) n [] = toDecimalAux n (n / 10) [Nat.digitChar (n % 10)] by
    simp [toDecimalAux, Nat.not_lt.mpr h]]
  rw [toDecimalAux_acc (n / 10) n _ (by omega),
    toDecimalAux_fuel (n / 10) n (n / 10 + 1) [] (by omega) (by omega)]
  rfl

theorem natToDecimal_ne_nil (n : ℕ) : natToDecimal n ≠ [] := by
  by_cases h : n < 10
  · rw [natToDecimal_lt h]; simp
  · rw [natToDecimal_ge (by omega)]; simp

theorem mem_natToDecimal_isDigit : ∀ (n : ℕ) (c : Char), c ∈ natToDecimal n →
    c.isDigit = true := by
  intro n
  induction n using Nat.strong_induction_on with
  | _ n ih =>
    intro c hc
    by_cases h : n < 10
    · rw [natToDecimal_lt h] at hc
      simp at hc
      subst hc
      exact digitChar_isDigit h
    · rw [natToDecimal_ge (by omega)] at hc
      rcases List.mem_append.mp hc with h1 | h1
      · exact ih (n / 10) (Nat.div_lt_self (by omega) (by omega)) c h1
      · simp at h1
        subst h1
        exact digitChar_isDigit (Nat.mod_lt n (by omega))

theorem parse_natToDecimal : ∀ (n v : ℕ) (acc : List Char),
    parseDigitsAux v (natToDecimal n ++ acc) =
      parseDigitsAux (v * 10 ^ (natToDecimal n).length + n) acc := by
  intro n
  induction n using Nat.strong_induction_on with
  | _ n ih =>
    intro v acc
    by_cases h : n < 10
    · rw [natToDecimal_lt h]
      simp only [List.singleton_append, parseDigitsAux, digitChar_isDigit h, if_true,
        digitChar_toNat h, List.length_singleton]
      congr 1
      omega
    · have hmod : n % 10 < 10 := Nat.mod_lt n (by omega)
      have hdiv : n / 10 < n := Nat.div_lt_self (by omega) (by omega)
      rw [natToDecimal_ge (by omega), List.append_assoc, List.singleton_append,
        ih (n / 10) hdiv v _]
      simp only [parseDigitsAux, digitChar_isDigit hmod, if_true, digitChar_toNat hmod]
      rw [List.length_append, List.length_singleton, pow_succ, ← mul_assoc]
      congr 1
      have key : ∀ u : ℕ, 10 * (u + n / 10) + (48 + n % 10 - 48) = u * 10 + n := by
        intro u; omega
      exact key (v * 10 ^ (natToDecimal (n / 10)).length)

theorem parseDigits_natToDecimal (n : ℕ) : parseDigits (natToDecimal n) = some n := by
  have hne := natToDecimal_ne_nil n
  have hstep : parseDigits (natToDecimal n) = parseDigitsAux 0 (natToDecimal n) := by
    cases h : natToDecimal n with
    | nil => exact absurd h hne
    | cons c t => rfl
  rw [hstep, ← List.append_nil (natToDecimal n), parse_natToDecimal n 0 []]
  simp [parseDigitsAux]

theorem parseDigitsAux_zeros : ∀ (k : ℕ) (t : List Char),
    parseDigitsAux 0 (List.replicate k '0' ++ t) = parseDigitsAux 0 t := by
  intro k
  induction k with
  | zero => intro t; rfl
  | succ k ih =>
    intro t
    rw [List.replicate_succ, List.cons_append]
    simp only [parseDigitsAux, show ('0').isDigit = true by decide, if_true,
      show ('0').toNat - 48 = 0 by decide]
    exact ih t

/-! ## `pyInt` on rendered numerals -/

theorem dropWhile_no (p : Char → Bool) : ∀ (l : List Char),
    (∀ c ∈ l, p c = false) → l.dropWhile p = l := by
  intro l h
  cases l with
  | nil => rfl
  | cons c t =>
    rw [List.dropWhile_cons, h c (by simp)]
    simp

theorem stripWs_eq_self (l : List Char) (h : ∀ c ∈ l, isPySpace c = false) :
    stripWs l = l := by
  rw [stripWs, dropWhile_no isPySpace l h,
    dropWhile_no isPySpace l.reverse (fun c hc => h c (List.mem_reverse.mp hc)),
    List.reverse_reverse]

theorem pyInt_digits (l : List Char) (hne : l ≠ []) (hd : ∀ c ∈ l, c.isDigit = true) :
    pyInt l = (parseDigits l).map (fun n => (n : ℤ)) := by
  have hs : stripWs l = l :=
    stripWs_eq_self l (fun c hc => (isDigit_facts (hd c hc)).2.2.2.2.2)
  cases hl : l with
  | nil => exact absurd hl hne
  | cons c t =>
    have hc : c.isDigit = true := hd c (by rw [hl]; simp)
    have h1 : c ≠ '+' := (isDigit_facts hc).2.2.1
    have h2 : c ≠ '-' := (isDigit_facts hc).2.2.2.1
    rw [← hl]
    rw [pyInt.eq_def, hs, hl]
    simp [h1, h2, ← hl]

/-- `pyInt` applied to the rendering of a nonnegative integer match count. -/
theorem pyInt_intDecimal (m : ℕ) : pyInt (intDecimal (m : ℤ)) = some (m : ℤ) := by
  have hm : ¬ ((m : ℤ) < 0) := by omega
  rw [intDecimal, if_neg hm, Int.natAbs_ofNat]
  rw [pyInt_digits (natToDecimal m) (natToDecimal_ne_nil m) (mem_natToDecimal_isDigit m)]
  rw [parseDigits_natToDecimal]
  rfl

theorem mem_pad4_nat (r : ℕ) (c : Char) (hc : c ∈ pad4 (r : ℤ)) :
    c.isDigit = true := by
  have hr : ¬ ((r : ℤ) < 0) := by omega
  rw [pad4, if_neg hr, Int.natAbs_ofNat] at hc
  rcases List.mem_append.mp hc with h1 | h1
  · rw [List.eq_of_mem_replicate h1]
    decide
  · exact mem_natToDecimal_isDigit r c h1

/-- `pyInt` applied to the zero-padded rendering of a nonnegative score. -/
theorem pyInt_pad4 (r : ℕ) : pyInt (pad4 (r : ℤ)) = some (r : ℤ) := by
  have hr : ¬ ((r : ℤ) < 0) := by omega
  have hpad : pad4 (r : ℤ) =
      List.replicate (4 - (natToDecimal r).length) '0' ++ natToDecimal r := by
    rw [pad4, if_neg hr, Int.natAbs_ofNat]
  have hne : pad4 (r : ℤ) ≠ [] := by
    rw [hpad]
    intro hcontra
    exact natToDecimal_ne_nil r (List.append_eq_nil.mp hcontra).2
  rw [pyInt_digits (pad4 (r : ℤ)) hne (mem_pad4_nat r)]
  have hparse : parseDigits (pad4 (r : ℤ)) = some r := by
    have hstep : parseDigits (pad4 (r : ℤ)) = parseDigitsAux 0 (pad4 (r : ℤ)) := by
      cases hl : pad4 (r : ℤ) with
      | nil => exact absurd hl hne
      | cons c t => rfl
    rw [hstep, hpad, parseDigitsAux_zeros]
    have h2 : parseDigits (natToDecimal r) = parseDigitsAux 0 (natToDecimal r) := by
      cases hl : natToDecimal r with
      | nil => exact absurd hl (natToDecimal_ne_nil r)
      | cons c t => rfl
    rw [← h2, parseDigits_natToDecimal]
  rw [hparse]
  rfl

/-! ## Splitting lemmas -/

theorem splitComma_ne_nil : ∀ (l : List Char), splitComma l ≠ [] := by
  intro l
  cases l with
  | nil => simp [splitComma]
  | cons c t =>
    rw [splitComma.eq_def]
    by_cases hc : c = ','
    · simp [hc]
    · simp only [hc, if_false]
      cases splitComma t <;> simp

theorem splitComma_no_comma : ∀ (l : List Char), (∀ c ∈ l, c ≠ ',') →
    splitComma l = [l] := by
  intro l
  induction l with
  | nil => intro _; rfl
  | cons c t ih =>
    intro h
    have hc : c ≠ ',' := h c (by simp)
    rw [splitComma.eq_def]
    simp only [hc, if_false]
    rw [ih (fun x hx => h x (by simp [hx]))]

theorem splitComma_append (a b : List Char) (h : ∀ c ∈ a, c ≠ ',') :
    splitComma (a ++ ',' :: b) = a :: splitComma b := by
  induction a with
  | nil =>
    rw [List.nil_append, splitComma.eq_def]
    simp
  | cons c t ih =>
    have hc : c ≠ ',' := h c (by simp)
    rw [List.cons_append, splitComma.eq_def]
    simp only [hc, if_false]
    rw [ih (fun x hx => h x (by simp [hx]))]

theorem splitOnBracketSpace_append (pre post : List Char)
    (h : ∀ c ∈ pre, c ≠ ']') :
    splitOnBracketSpace (pre ++ ']' :: ' ' :: post) = some (pre, post) := by
  induction pre with
  | nil => simp [splitOnBracketSpace]
  | cons c t ih =>
    have hc : c ≠ ']' := h c (by simp)
    rw [List.cons_append, splitOnBracketSpace.eq_def]
    simp only [hc, Bool.false_and, decide_eq_true_eq, false_and, if_neg,
      Bool.and_eq_true, not_false_iff]
    rw [ih (fun x hx => h x (by simp [hx]))]
    simp [hc]

/-! ## Round trip of the codec -/

theorem startsBracket_stemL (t : List Char) : startsBracket (stemL ('[' :: t)) = true := by
  unfold stemL
  cases h : rfindDot ('[' :: t) with
  | none => simp [startsBracket]
  | some i =>
    dsimp only
    by_cases hi : 0 < i ∧ i < ('[' :: t).length - 1
    · rw [if_pos hi]
      obtain ⟨j, rfl⟩ : ∃ j, i = j + 1 := ⟨i - 1, by omega⟩
      rw [List.take_succ_cons]
      simp [startsBracket]
    · rw [if_neg hi]
      simp [startsBracket]

theorem decodeInit_encodeL (clean : List Char) (r m : ℕ) :
    decodeInit (encodeL clean (r : ℤ) (m : ℤ)) = some (clean, (r : ℤ), (m : ℤ)) := by
  have hAd : ∀ c ∈ pad4 (r : ℤ), c.isDigit = true := mem_pad4_nat r
  have hBd : ∀ c ∈ intDecimal (m : ℤ), c.isDigit = true := by
    rw [intDecimal, if_neg (by omega : ¬ ((m : ℤ) < 0)), Int.natAbs_ofNat]
    exact mem_natToDecimal_isDigit m
  have hcons : encodeL clean (r : ℤ) (m : ℤ) =
      '[' :: (pad4 (r : ℤ) ++ ',' :: (intDecimal (m : ℤ) ++ ']' :: ' ' :: clean)) := rfl
  have hesplit : encodeL clean (r : ℤ) (m : ℤ) =
      ('[' :: (pad4 (r : ℤ) ++ ',' :: intDecimal (m : ℤ))) ++ ']' :: ' ' :: clean := by
    simp [encodeL, List.append_assoc]
  have hpre : ∀ c ∈ '[' :: (pad4 (r : ℤ) ++ ',' :: intDecimal (m : ℤ)), c ≠ ']' := by
    intro c hc
    rcases List.mem_cons.mp hc with rfl | hc2
    · decide
    · rcases List.mem_append.mp hc2 with h3 | h3
      · exact (isDigit_facts (hAd c h3)).1
      · rcases List.mem_cons.mp h3 with rfl | h4
        · decide
        · exact (isDigit_facts (hBd c h4)).1
  have hsobs : splitOnBracketSpace (encodeL clean (r : ℤ) (m : ℤ)) =
      some ('[' :: (pad4 (r : ℤ) ++ ',' :: intDecimal (m : ℤ)), clean) := by
    rw [hesplit]
    exact splitOnBracketSpace_append _ _ hpre
  have hguard : hasEloTag (encodeL clean (r : ℤ) (m : ℤ)) = true := by
    rw [hasEloTag, Bool.and_eq_true]
    constructor
    · rw [hcons]
      exact startsBracket_stemL _
    · show (splitOnBracketSpace (encodeL clean (r : ℤ) (m : ℤ))).isSome = true
      rw [hsobs]
      rfl
  have hdrop : (encodeL clean (r : ℤ) (m : ℤ)).drop 1 =
      (pad4 (r : ℤ) ++ ',' :: intDecimal (m : ℤ)) ++ ']' :: ' ' :: clean := by
    rw [hcons, List.drop_one, List.tail_cons]
    simp [List.append_assoc]
  have hpre2 : ∀ c ∈ pad4 (r : ℤ) ++ ',' :: intDecimal (m : ℤ), c ≠ ']' :=
    fun c hc => hpre c (List.mem_cons_of_mem _ hc)
  have hpart : partitionSep ((encodeL clean (r : ℤ) (m : ℤ)).drop 1) =
      (pad4 (r : ℤ) ++ ',' :: intDecimal (m : ℤ), clean) := by
    rw [hdrop]
    unfold partitionSep
    rw [splitOnBracketSpace_append _ _ hpre2]
  have hsplitc : splitComma (pad4 (r : ℤ) ++ ',' :: intDecimal (m : ℤ)) =
      [pad4 (r : ℤ), intDecimal (m : ℤ)] := by
    rw [splitComma_append _ _ (fun c hc => (isDigit_facts (hAd c hc)).2.1),
      splitComma_no_comma _ (fun c hc => (isDigit_facts (hBd c hc)).2.1)]
  unfold decodeInit
  rw [hguard]
  simp only [if_true]
  rw [hpart]
  simp only
  rw [hsplitc]
  simp only
  rw [pyInt_pad4 r, pyInt_intDecimal m]

/-! ## Elo arithmetic lemmas -/

theorem rpow_ten_pos (x : ℝ) : 0 < (10 : ℝ) ^ x :=
  Real.rpow_pos_of_pos (by norm_num) x

theorem expectation_pos (x : ℝ) : 0 < 1 / (1 + (10 : ℝ) ^ x) := by
  have := rpow_ten_pos x
  positivity

theorem expectation_lt_one (x : ℝ) : 1 / (1 + (10 : ℝ) ^ x) < 1 := by
  have h := rpow_ten_pos x
  rw [div_lt_one (by linarith)]
  linarith

/-- The two expectations computed in `wins_over` sum to 1 (they use opposite
exponents). -/
theorem expectation_sum (Ra Rb : ℝ) :
    1 / (1 + (10 : ℝ) ^ ((Ra - Rb) / 400)) + 1 / (1 + (10 : ℝ) ^ ((Rb - Ra) / 400)) = 1 := by
  have ht : 0 < (10 : ℝ) ^ ((Ra - Rb) / 400) := rpow_ten_pos _
  have hneg : (Rb - Ra) / 400 = -((Ra - Rb) / 400) := by ring
  rw [hneg, Real.rpow_neg (by norm_num : (0 : ℝ) ≤ 10)]
  have h2 : (10 : ℝ) ^ ((Ra - Rb) / 400) ≠ 0 := ne_of_gt ht
  have h1 : (1 : ℝ) + (10 : ℝ) ^ ((Ra - Rb) / 400) ≠ 0 := by positivity
  have h3 : (1 : ℝ) + ((10 : ℝ) ^ ((Ra - Rb) / 400))⁻¹ ≠ 0 := by positivity
  field_simp
  ring

/-! ## Item-level unfolding lemmas -/

theorem winsOver_fst (w l : Item) :
    (winsOver w l).1 = updateName { w with
      score := w.score + w.k * (1 - 1 / (1 + (10 : ℝ) ^ ((w.score - l.score) / 400))),
      matchCount := w.matchCount + 1 } := rfl

theorem winsOver_snd (w l : Item) :
    (winsOver w l).2 = updateName { l with
      score := l.score + w.k * (0 - 1 / (1 + (10 : ℝ) ^ ((l.score - w.score) / 400))),
      matchCount := l.matchCount + 1 } := rfl

theorem updateName_score (it : Item) : (updateName it).score = it.score := rfl

theorem updateName_fpName (it : Item) :
    (updateName it).fpName = encodeL it.clean (formatScore it.score) it.matchCount := rfl

theorem formatScore_intCast (n : ℤ) : formatScore ((n : ℤ) : ℝ) = n := by
  unfold formatScore
  rw [Int.floor_intCast, sub_self]
  norm_num

/-! ## Concrete items for the worked examples -/

noncomputable def sunsetItem : Item :=
  { fpName := "sunset.jpg".data, clean := "sunset.jpg".data,
    score := 1400, matchCount := 0, k := 32 }

noncomputable def peerItem : Item :=
  { fpName := "peer.jpg".data, clean := "peer.jpg".data,
    score := 1400, matchCount := 0, k := 32 }

/-- `sunsetItem` is exactly what `RankFileModel("sunset.jpg")` constructs. -/
theorem mkItem_sunset : mkItem "sunset.jpg".data = some sunsetItem := by
  have hdec : decodeInit "sunset.jpg".data = some ("sunset.jpg".data, 1400, 0) := by decide
  rw [mkItem, hdec]
  simp only [Option.map_some']
  unfold sunsetItem
  norm_num

/-- At equal ratings both expectations are 1/2, so the code updates the two
scores by plus and minus `k/2`. -/
theorem winsOver_equal_scores (w l : Item) (hw : w.score = 1400) (hl : l.score = 1400) :
    (winsOver w l).1.score = 1400 + w.k / 2 ∧ (winsOver w l).2.score = 1400 - w.k / 2 := by
  have h0 : ((1400 : ℝ) - 1400) / 400 = 0 := by norm_num
  constructor
  · rw [winsOver_fst, updateName_score]
    show w.score + w.k * (1 - 1 / (1 + (10 : ℝ) ^ ((w.score - l.score) / 400))) = 1400 + w.k / 2
    rw [hw, hl, h0, Real.rpow_zero]
    ring
  · rw [winsOver_snd, updateName_score]
    show l.score + w.k * (0 - 1 / (1 + (10 : ℝ) ^ ((l.score - w.score) / 400))) = 1400 - w.k / 2
    rw [hw, hl, h0, Real.rpow_zero]
    ring

/-! ## Disjointness of a pass, and termination helpers -/

theorem pairsFlat_nodup (l : List α) (h : l.Nodup) : (pairsFlat (pairUp l)).Nodup := by
  rw [pairsFlat_pairUp]
  exact List.Nodup.sublist (List.take_sublist _ _) h

theorem pairsFlat_last (l : List α) (h : l.Nodup) (hodd : l.length % 2 = 1) :
    ∀ x, l.getLast? = some x → x ∉ pairsFlat (pairUp l) := by
  intro x hx
  rw [pairsFlat_pairUp]
  have hmem : x ∈ l.getLast? := by rw [Option.mem_def]; exact hx
  have hdl : l.dropLast ++ [x] = l := List.dropLast_append_getLast? x hmem
  have h2 : l.take (2 * (l.length / 2)) = (l.dropLast ++ [x]).take l.dropLast.length := by
    rw [hdl, List.length_dropLast]
    congr 1
    omega
  rw [h2, List.take_left]
  intro hmem2
  have hnd2 : (l.dropLast ++ [x]).Nodup := by rw [hdl]; exact h
  exact (List.disjoint_of_nodup_append hnd2) hmem2 (by simp)

theorem run_done (sh : ℕ → List α → List α) (s : Sched α)
    (h1 : s.iterRest = []) (h2 : 3 ≤ s.rounds) :
    loadNext sh s = (⟨s.fpList, [], s.rounds⟩, none) ∧
    run sh s = ([], ⟨s.fpList, [], s.rounds⟩) := by
  obtain ⟨fl, ir, rr⟩ := s
  dsimp only at h1 h2 ⊢
  subst h1
  have hl := loadNext_nil_ge sh fl rr (by omega)
  refine ⟨hl, ?_⟩
  rw [run_none sh _ (by rw [hl]), hl]

/-- From the initial state (fresh directory scan: empty iterator, round
counter 0), the whole interaction yields exactly the three shuffled passes. -/
theorem run_from_start (sh : ℕ → List α → List α) (l0 : List α) :
    (run sh ⟨l0, [], 0⟩).1 =
      pairUp (sh 0 l0) ++ pairUp (sh 1 (sh 0 l0)) ++ pairUp (sh 2 (sh 1 (sh 0 l0))) := by
  obtain ⟨h1, _, _⟩ := run_main sh 3 0 [] l0 0 (by omega) (by simp)
  have hfst := congrArg Prod.fst h1
  dsimp only at hfst
  rw [hfst]
  rw [expectedRun_lt sh l0 0 (by omega), expectedRun_lt sh _ 1 (by omega),
    expectedRun_lt sh _ 2 (by omega), expectedRun_ge sh _ 3 (by omega)]
  simp [pairUp, List.append_assoc]

/-! ## Worked Elo example at equal ratings 1400, K = 32 -/

theorem winsOver_snd_fpName (w l : Item) :
    (winsOver w l).2.fpName = encodeL l.clean
      (formatScore (l.score + w.k * (0 - 1 / (1 + (10 : ℝ) ^ ((l.score - w.score) / 400)))))
      (l.matchCount + 1) := rfl

theorem winsOver_fst_fpName (w l : Item) :
    (winsOver w l).1.fpName = encodeL w.clean
      (formatScore (w.score + w.k * (1 - 1 / (1 + (10 : ℝ) ^ ((w.score - l.score) / 400)))))
      (w.matchCount + 1) := rfl

/-- Losing the first match against a 1400-rated peer at K = 32 renames
`sunset.jpg` to `[1384,1] sunset.jpg`. -/
theorem sunset_lose_name :
    (winsOver peerItem sunsetItem).2.fpName = "[1384,1] sunset.jpg".data := by
  rw [winsOver_snd_fpName]
  have hS : sunsetItem.score + peerItem.k *
      (0 - 1 / (1 + (10 : ℝ) ^ ((sunsetItem.score - peerItem.score) / 400))) =
      ((1384 : ℤ) : ℝ) := by
    show (1400 : ℝ) + 32 * (0 - 1 / (1 + (10 : ℝ) ^ (((1400 : ℝ) - 1400) / 400))) =
      ((1384 : ℤ) : ℝ)
    rw [show ((1400 : ℝ) - 1400) / 400 = 0 by norm_num, Real.rpow_zero]
    norm_num
  rw [hS, formatScore_intCast]
  decide

/-- Winning the first match against a 1400-rated peer at K = 32 renames
`sunset.jpg` to `[1416,1] sunset.jpg`. -/
theorem sunset_win_name :
    (winsOver sunsetItem peerItem).1.fpName = "[1416,1] sunset.jpg".data := by
  rw [winsOver_fst_fpName]
  have hS : sunsetItem.score + sunsetItem.k *
      (1 - 1 / (1 + (10 : ℝ) ^ ((sunsetItem.score - peerItem.score) / 400))) =
      ((1416 : ℤ) : ℝ) := by
    show (1400 : ℝ) + 32 * (1 - 1 / (1 + (10 : ℝ) ^ (((1400 : ℝ) - 1400) / 400))) =
      ((1416 : ℤ) : ℝ)
    rw [show ((1400 : ℝ) - 1400) / 400 = 0 by norm_num, Real.rpow_zero]
    norm_num
  rw [hS, formatScore_intCast]
  decide

/-! ## Claim theorems -/

/-- C1 (code bug): at ratingA = 1600, ratingB = 1400, k = 32 the update the
code computes differs from the claimed (standard Elo) update: the code's
`E_a` uses exponent `(R_a - R_b)/400` where the claim (and the spec's
EloUpdater contract) has `(ratingB - ratingA)/400`, so the code pays the
higher-rated winner strictly more than the claimed formula and docks the
loser strictly more. -/
theorem elo_update_exponent_bug :
    (eloUpdateSpec 1600 1400 32).1 < (eloUpdate 1600 1400 32).1 ∧
    (eloUpdate 1600 1400 32).2 < (eloUpdateSpec 1600 1400 32).2 := by
  have hx : ((1600 : ℝ) - 1400) / 400 = (1 / 2 : ℝ) := by norm_num
  have hy : ((1400 : ℝ) - 1600) / 400 = (-(1 / 2) : ℝ) := by norm_num
  have hlt : (10 : ℝ) ^ ((-(1 / 2)) : ℝ) < (10 : ℝ) ^ ((1 / 2 : ℝ)) :=
    (Real.rpow_lt_rpow_left_iff (by norm_num)).mpr (by norm_num)
  have hb : 0 < (10 : ℝ) ^ ((-(1 / 2)) : ℝ) := rpow_ten_pos _
  have hE : 1 / (1 + (10 : ℝ) ^ ((1 / 2 : ℝ))) < 1 / (1 + (10 : ℝ) ^ ((-(1 / 2)) : ℝ)) :=
    one_div_lt_one_div_of_lt (by linarith) (by linarith)
  unfold eloUpdate eloUpdateSpec
  constructor
  · dsimp only
    rw [hx, hy]
    linarith
  · dsimp only
    rw [hx, hy]
    linarith

/-- C2 (counterexample): the spec's worked example is arithmetically wrong on
the code: after the first match between two 1400-rated items at K = 32 the
expectations are 1/2, so the loser's file becomes `[1384,1] sunset.jpg`
(not `[1400,1] sunset.jpg`) and the winner's becomes `[1416,1] sunset.jpg`
(not `[1432,1] sunset.jpg`). -/
theorem sunset_example_cex :
    (winsOver peerItem sunsetItem).2.fpName ≠ "[1400,1] sunset.jpg".data ∧
    (winsOver sunsetItem peerItem).1.fpName ≠ "[1432,1] sunset.jpg".data := by
  constructor
  · rw [sunset_lose_name]; decide
  · rw [sunset_win_name]; decide

/-- C2 (amended): an unrated `sunset.jpg` (default rating 1400, K = 32) is
renamed `[1384,1] sunset.jpg` after losing its first match against a
1400-rated peer, and `[1416,1] sunset.jpg` after winning it. -/
theorem sunset_example_amended :
    (winsOver peerItem sunsetItem).2.fpName = "[1384,1] sunset.jpg".data ∧
    (winsOver sunsetItem peerItem).1.fpName = "[1416,1] sunset.jpg".data :=
  ⟨sunset_lose_name, sunset_win_name⟩

/-- C3 (confirmed): decoding is an exact left inverse of encoding: for every
clean name and all nonnegative integer rating and match count, parsing the
encoded file name returns exactly the encoded triple. -/
theorem decode_encode_roundtrip (clean : String) (r m : ℕ) :
    decodeName (encodeName clean (r : ℤ) (m : ℤ)) = some (clean, (r : ℤ), (m : ℤ)) := by
  obtain ⟨l⟩ := clean
  unfold decodeName encodeName
  dsimp only
  rw [decodeInit_encodeL l r m]
  rfl

theorem decode_encode_roundtrip_w :
    decodeName (encodeName "photo.png" ((1416 : ℕ) : ℤ) ((1 : ℕ) : ℤ)) =
      some ("photo.png", ((1416 : ℕ) : ℤ), ((1 : ℕ) : ℤ)) :=
  decode_encode_roundtrip "photo.png" 1416 1

/-- C4 (counterexample): on a name whose bracketed prefix is present but
malformed (`[abc,def] x.jpg`: non-integer fields), `__init__` raises
`ValueError` (modelled by `none`) instead of returning the silent fallback
`(name, 1400, 0)` the claim asserts. -/
theorem malformed_prefix_raises :
    decodeName "[abc,def] x.jpg" = none ∧
    decodeName "[abc,def] x.jpg" ≠ some ("[abc,def] x.jpg", 1400, 0) := by
  constructor
  · decide
  · decide

/-- C4 (amended): the silent fallback to `(name, 1400, 0)` applies exactly to
names that fail the structural guard (stem not starting with `[`, or no `] `
in the name); when the guard matches but the bracket content is malformed,
decoding raises instead. -/
theorem decode_fallback_only_without_tag (s : String)
    (h : hasEloTag s.data = false) :
    decodeName s = some (s, 1400, 0) := by
  obtain ⟨l⟩ := s
  dsimp only at h
  unfold decodeName decodeInit
  dsimp only
  simp [h]

theorem decode_fallback_only_without_tag_w :
    hasEloTag "photo.png".data = false ∧
    decodeName "photo.png" = some ("photo.png", 1400, 0) :=
  ⟨by decide, decode_fallback_only_without_tag "photo.png" (by decide)⟩

/-- A pair of items carrying different K-factors (the program itself always
uses the default 32; these exercise the claim's premise). -/
noncomputable def itemKA : Item :=
  { fpName := "a.jpg".data, clean := "a.jpg".data, score := 1400, matchCount := 0, k := 32 }

noncomputable def itemKB : Item :=
  { fpName := "b.jpg".data, clean := "b.jpg".data, score := 1400, matchCount := 0, k := 16 }

/-- C5 (counterexample): with winner K-factor 32 and loser K-factor 16, both
items rated 1400, `wins_over` sets the loser's score to 1400 - 32·(1/2) = 1384,
not the 1400 - 16·(1/2) = 1392 that the loser's own K-factor would give:
the loser's delta is scaled by `self._k`, the winner's K-factor. -/
theorem wins_over_loser_k_cex :
    (winsOver itemKA itemKB).2.score = 1384 ∧
    (winsOver itemKA itemKB).2.score ≠
      itemKB.score + itemKB.k *
        (0 - 1 / (1 + (10 : ℝ) ^ ((itemKB.score - itemKA.score) / 400))) := by
  have h := (winsOver_equal_scores itemKA itemKB rfl rfl).2
  have h1384 : (1400 : ℝ) - itemKA.k / 2 = 1384 := by
    show (1400 : ℝ) - 32 / 2 = 1384
    norm_num
  have hrhs : itemKB.score + itemKB.k *
      (0 - 1 / (1 + (10 : ℝ) ^ ((itemKB.score - itemKA.score) / 400))) = 1392 := by
    show (1400 : ℝ) + 16 * (0 - 1 / (1 + (10 : ℝ) ^ (((1400 : ℝ) - 1400) / 400))) = 1392
    rw [show ((1400 : ℝ) - 1400) / 400 = 0 by norm_num, Real.rpow_zero]
    norm_num
  refine ⟨by rw [h, h1384], ?_⟩
  rw [h, h1384, hrhs]
  norm_num

/-- C5 (amended): `wins_over` computes both new scores with the winner's own
K-factor: it agrees with `eloUpdate(winner.score, loser.score, winner.k)` on
both components, and the loser's stored K-factor is immaterial to the result. -/
theorem wins_over_k_amended (w l : Item) (k2 : ℝ) :
    ((winsOver w l).1.score, (winsOver w l).2.score) = eloUpdate w.score l.score w.k ∧
    (winsOver w { l with k := k2 }).2.score = (winsOver w l).2.score :=
  ⟨rfl, rfl⟩

/-- C6 (counterexample): after `reset_name`, the method `filename()` still
returns the rating-prefixed name `[1400,0] sunset.jpg` (score and match count
are not reset), which differs from the clean name `sunset.jpg` the claim
asserts. -/
theorem reset_filename_cex :
    filenameL (resetName sunsetItem) = "[1400,0] sunset.jpg".data ∧
    filenameL (resetName sunsetItem) ≠ "sunset.jpg".data := by
  have h1 : filenameL (resetName sunsetItem) = "[1400,0] sunset.jpg".data := by
    unfold filenameL resetName
    dsimp only
    rw [show sunsetItem.score = ((1400 : ℤ) : ℝ) by norm_num [sunsetItem],
      formatScore_intCast]
    decide
  exact ⟨h1, by rw [h1]; decide⟩

/-- C6 (amended): after `reset_name` the on-disk file name equals the original
clean name, and — provided the clean name itself carries no rating tag —
decoding that name yields the default rating 1400 and zero matches.  (The
method `filename()` is not affected by `reset_name`, see the counterexample.) -/
theorem reset_name_amended (it : Item) (h : hasEloTag it.clean = false) :
    (resetName it).fpName = it.clean ∧
    decodeInit ((resetName it).fpName) = some (it.clean, 1400, 0) := by
  refine ⟨rfl, ?_⟩
  show decodeInit it.clean = some (it.clean, 1400, 0)
  unfold decodeInit
  simp [h]

theorem reset_name_amended_w :
    hasEloTag sunsetItem.clean = false ∧
    ((resetName sunsetItem).fpName = sunsetItem.clean ∧
      decodeInit ((resetName sunsetItem).fpName) = some (sunsetItem.clean, 1400, 0)) :=
  ⟨by decide, reset_name_amended sunsetItem (by decide)⟩

/-- C7 (confirmed): from a fresh working set of N ≥ 2 items, `load_next`
yields the pairs of exactly three shuffled passes (the round cap R = 3),
each pass contributing exactly ⌊N/2⌋ pairs; afterwards the scheduler is done —
the next call clears both display slots (the `none` output) and the
interaction yields no further pairs. -/
theorem scheduler_three_rounds {α : Type} (sh : ℕ → List α → List α) (l0 : List α)
    (hlen : ∀ (r : ℕ) (l : List α), (sh r l).length = l.length) (hN : 2 ≤ l0.length) :
    (run sh ⟨l0, [], 0⟩).1 =
      pairUp (sh 0 l0) ++ pairUp (sh 1 (sh 0 l0)) ++ pairUp (sh 2 (sh 1 (sh 0 l0))) ∧
    (pairUp (sh 0 l0)).length = l0.length / 2 ∧
    (pairUp (sh 1 (sh 0 l0))).length = l0.length / 2 ∧
    (pairUp (sh 2 (sh 1 (sh 0 l0)))).length = l0.length / 2 ∧
    (loadNext sh (run sh ⟨l0, [], 0⟩).2).2 = none ∧
    (run sh (run sh ⟨l0, [], 0⟩).2).1 = [] := by
  obtain ⟨h1, h2, h3⟩ := run_main sh 3 0 [] l0 0 (by omega) (by simp)
  obtain ⟨hdone1, hdone2⟩ := run_done sh (run sh ⟨l0, [], 0⟩).2 h3 h2
  refine ⟨run_from_start sh l0, ?_, ?_, ?_, ?_, ?_⟩
  · rw [pairUp_length, hlen]
  · rw [pairUp_length, hlen, hlen]
  · rw [pairUp_length, hlen, hlen, hlen]
  · rw [hdone1]
  · rw [hdone2]

theorem scheduler_three_rounds_w :
    (∀ (r : ℕ) (l : List ℕ), (((fun _ l2 => l2) : ℕ → List ℕ → List ℕ) r l).length = l.length) ∧
    2 ≤ ([0, 1, 2, 3] : List ℕ).length ∧
    ((run (fun _ l2 => l2) ⟨[0, 1, 2, 3], [], 0⟩).1 =
        pairUp [0, 1, 2, 3] ++ pairUp [0, 1, 2, 3] ++ pairUp [0, 1, 2, 3] ∧
      (pairUp ([0, 1, 2, 3] : List ℕ)).length = 2 ∧
      (pairUp ([0, 1, 2, 3] : List ℕ)).length = 2 ∧
      (pairUp ([0, 1, 2, 3] : List ℕ)).length = 2 ∧
      (loadNext (fun _ l2 => l2) (run (fun _ l2 => l2) ⟨[0, 1, 2, 3], [], 0⟩).2).2 = none ∧
      (run (fun _ l2 => l2) (run (fun _ l2 => l2) ⟨[0, 1, 2, 3], [], 0⟩).2).1 = []) :=
  ⟨fun _ _ => rfl, by decide,
    scheduler_three_rounds (fun _ l2 => l2) [0, 1, 2, 3] (fun _ _ => rfl) (by decide)⟩

/-- C8 (confirmed): within a single pass over a duplicate-free working set
the yielded pairs are the disjoint consecutive pairs of the shuffled list —
no item occurs in two different pairs — and when the set size is odd the
shuffled list's last (leftover) item is not paired in that pass. -/
theorem pass_pairs_disjoint {α : Type} (sh : ℕ → List α → List α) (l0 : List α)
    (hperm : ∀ (r : ℕ) (l : List α), (sh r l).Perm l) (hnd : l0.Nodup) :
    (run sh ⟨l0, [], 0⟩).1 =
      pairUp (sh 0 l0) ++ pairUp (sh 1 (sh 0 l0)) ++ pairUp (sh 2 (sh 1 (sh 0 l0))) ∧
    ∀ l, (l = sh 0 l0 ∨ l = sh 1 (sh 0 l0) ∨ l = sh 2 (sh 1 (sh 0 l0))) →
      pairsFlat (pairUp l) = l.take (2 * (l.length / 2)) ∧
      (pairsFlat (pairUp l)).Nodup ∧
      (l.length % 2 = 1 → ∀ x, l.getLast? = some x → x ∉ pairsFlat (pairUp l)) := by
  have hnd1 : (sh 0 l0).Nodup := ((hperm 0 l0).nodup_iff).mpr hnd
  have hnd2 : (sh 1 (sh 0 l0)).Nodup := ((hperm 1 _).nodup_iff).mpr hnd1
  have hnd3 : (sh 2 (sh 1 (sh 0 l0))).Nodup := ((hperm 2 _).nodup_iff).mpr hnd2
  refine ⟨run_from_start sh l0, ?_⟩
  intro l hl
  have hndl : l.Nodup := by rcases hl with rfl | rfl | rfl <;> assumption
  exact ⟨pairsFlat_pairUp l, pairsFlat_nodup l hndl,
    fun hodd x hx => pairsFlat_last l hndl hodd x hx⟩

theorem pass_pairs_disjoint_w :
    (∀ (r : ℕ) (l : List ℕ), (((fun _ l2 => l2) : ℕ → List ℕ → List ℕ) r l).Perm l) ∧
    ([0, 1, 2] : List ℕ).Nodup ∧
    ((run (fun _ l2 => l2) ⟨[0, 1, 2], [], 0⟩).1 =
        pairUp [0, 1, 2] ++ pairUp [0, 1, 2] ++ pairUp [0, 1, 2] ∧
      ∀ l : List ℕ, (l = [0, 1, 2] ∨ l = [0, 1, 2] ∨ l = [0, 1, 2]) →
        pairsFlat (pairUp l) = l.take (2 * (l.length / 2)) ∧
        (pairsFlat (pairUp l)).Nodup ∧
        (l.length % 2 = 1 → ∀ x, l.getLast? = some x → x ∉ pairsFlat (pairUp l))) :=
  ⟨fun _ l => List.Perm.refl l, by decide,
    pass_pairs_disjoint (fun _ l2 => l2) [0, 1, 2] (fun _ l => List.Perm.refl l) (by decide)⟩

/-- C9 (confirmed): over exact real arithmetic, for every pair of ratings and
every K-factor k > 0, one `wins_over` update strictly increases the winner's
rating and strictly decreases the loser's. -/
theorem elo_strict_monotone (Ra Rb k : ℝ) (hk : 0 < k) :
    Ra < (eloUpdate Ra Rb k).1 ∧ (eloUpdate Ra Rb k).2 < Rb := by
  have h1 := expectation_pos ((Ra - Rb) / 400)
  have h2 := expectation_lt_one ((Ra - Rb) / 400)
  have h3 := expectation_pos ((Rb - Ra) / 400)
  unfold eloUpdate
  constructor
  · dsimp only
    nlinarith
  · dsimp only
    nlinarith

theorem elo_strict_monotone_w :
    (0 : ℝ) < 32 ∧
    ((1400 : ℝ) < (eloUpdate 1400 1500 32).1 ∧ (eloUpdate 1400 1500 32).2 < 1500) :=
  ⟨by norm_num, elo_strict_monotone 1400 1500 32 (by norm_num)⟩

/-- C10 (confirmed): when both items carry the same K-factor, one `wins_over`
update conserves the total rating: the two expectations sum to 1, so the
winner's gain equals the loser's loss.  (The code scales both deltas by the
winner's K-factor, so the sum is in fact conserved unconditionally.) -/
theorem wins_over_conserves_sum (w l : Item) (hk : w.k = l.k) :
    (winsOver w l).1.score + (winsOver w l).2.score = w.score + l.score := by
  rw [winsOver_fst, winsOver_snd, updateName_score, updateName_score]
  dsimp only
  have hs := expectation_sum w.score l.score
  linear_combination (-(w.k)) * hs

theorem wins_over_conserves_sum_w :
    sunsetItem.k = peerItem.k ∧
    (winsOver sunsetItem peerItem).1.score + (winsOver sunsetItem peerItem).2.score =
      sunsetItem.score + peerItem.score :=
  ⟨rfl, wins_over_conserves_sum sunsetItem peerItem rfl⟩

end Picelo
